import Mathlib

/-!
Verification of the `dithord` ordered-dithering library.

Shallow embedding of `src/threshold_map.rs` and `src/ordered_dither.rs`.

Machine integers (`usize`, `u32`, `u64`) are modelled as `ℕ` with explicit
`% 2 ^ w` reductions at the operations where the Rust source can wrap, and
shift amounts are masked by the width of the shifted operand — `% 64` for
`usize`/`u64` shifts, `% 32` for the `u32` sub-expression of the
interleave loop — as a Rust release build does.  The `f32` matrix cells are modelled as exact
rationals: the only inexact operation performed by the source on the values
it computes is the integer → `f32` cast, modelled by `roundF32`
(IEEE-754 round to nearest, ties to even, at the 24 significant bits of an
`f32`); the final `f32` division always has a power-of-two divisor and a
dividend that is already an exactly-represented `f32` value, so it is exact
and modelled as exact rational division.
-/

/-- Number of binary digits of `n`, with explicit fuel so that the function
is structurally recursive and evaluates by kernel reduction.  For
`n < 2 ^ fuel` the fuel never runs out. -/
def bitLenGo : ℕ → ℕ → ℕ
  | 0, _ => 0
  | fuel + 1, n => if n = 0 then 0 else bitLenGo fuel (n / 2) + 1

/-- Number of binary digits of a 64-bit value. -/
def bitLen (n : ℕ) : ℕ := bitLenGo 64 n

/-- IEEE-754 `f32` rounding of a nonnegative integer (the casts
`result as f32` and `size.pow(2) as f32` in `threshold_map.rs` line 39):
round to nearest, ties to even, keeping 24 significant bits.  Exact for
inputs below `2 ^ 24`; all inputs in the program are 64-bit values, well
inside the `f32` exponent range. -/
def roundF32 (n : ℕ) : ℕ :=
  if n < 2 ^ 24 then n
  else
    let e := bitLen n - 24
    let q := n / 2 ^ e
    let r := n % 2 ^ e
    if r < 2 ^ (e - 1) then q * 2 ^ e
    else if 2 ^ (e - 1) < r then (q + 1) * 2 ^ e
    else if q % 2 = 0 then q * 2 ^ e else (q + 1) * 2 ^ e

/-- The bit-interleaving loop of `ThresholdMap::level` (`threshold_map.rs`
lines 25–37) with the mutable state `bit`, `mask`, `result` passed
explicitly.  The source loop runs while `bit < 2 * power` and `bit` grows
by 2 per iteration, so it performs exactly `power` iterations; `steps`
counts the iterations still to run and `mask` descends from `power - 1` to
`0` (it never goes negative while used).  The `j` line
`(((j >> mask) & 1) << bit) as u64` computes in `usize`, so its shift
amounts are masked by 64 (release semantics).  The `a` line
`(((a >> mask) & 1) << bit) as u64` computes in `u32` (`a` is `u32`), so
both of its shift amounts are masked by 32 and the expression is a 32-bit
value before the `as u64` cast; since the shifted value is `0` or `1`, the
shift masking is the only truncation.  (A debug build panics where a
masked amount differs from the written one, i.e. on the `a` shift once
`bit + 1 ≥ 32`, which happens from `power = 17`, level 16, on.) -/
def interleaveGo (j a : ℕ) : ℕ → ℕ → ℕ → ℕ → ℕ
  | 0, _, _, result => result
  | steps + 1, bit, mask, result =>
    interleaveGo j a steps (bit + 2) (mask - 1)
      ((result ||| ((j >>> (mask % 64)) &&& 1) <<< (bit % 64)) |||
        ((a >>> (mask % 32)) &&& 1) <<< ((bit + 1) % 32))

/-- The per-cell computation of `ThresholdMap::level` (`threshold_map.rs`
lines 22–39): `a = (i ^ j) as u32` (truncating cast), the interleaving
loop, and `result as f32 / size.pow(2) as f32`.  `usize::pow` wraps modulo
`2 ^ 64` (release semantics).  Both `f32` casts are `roundF32`; the `f32`
division is exact in every realizable use (the rounded divisor is a power
of two and the quotient needs no further rounding), so it is modelled as
exact rational division. -/
def cellValue (power size i j : ℕ) : ℚ :=
  let a := (i ^^^ j) % 2 ^ 32
  let result := interleaveGo j a power 0 (power - 1) 0
  (roundF32 result : ℚ) / (roundF32 (size ^ 2 % 2 ^ 64) : ℚ)

/-- `ThresholdMap` (`threshold_map.rs` line 3): a matrix of `f32` threshold
values, modelled as exact rationals. -/
structure ThresholdMap where
  mat : List (List ℚ)
deriving DecidableEq

/-- `ThresholdMap::level` (`threshold_map.rs` lines 16–44).  `level` is a
`u32`, so `power = level + 1` wraps modulo `2 ^ 32`; `size = 1 << power` is
a `usize` shift whose amount is masked by 64 in a release build. -/
def ThresholdMap.level (level : ℕ) : ThresholdMap :=
  let power := (level + 1) % 2 ^ 32
  let size := 1 <<< (power % 64)
  ⟨(List.range size).map fun i => (List.range size).map fun j => cellValue power size i j⟩

/-- `ThresholdMap::sample` (`threshold_map.rs` lines 53–56):
`self.0[y % size][x % size]` with `size = self.0.len()`.  All indices the
program produces are in bounds; `List.getD` totalizes the Rust indexing. -/
def ThresholdMap.sample (m : ThresholdMap) (x y : ℕ) : ℚ :=
  let size := m.mat.length
  (m.mat.getD (y % size) []).getD (x % size) 0

/-- `test_pixel` (`ordered_dither.rs` lines 33–35):
`luma > map.sample(x, y)`. -/
def test_pixel (map : ThresholdMap) (luma : ℚ) (x y : ℕ) : Bool :=
  decide (luma > map.sample x y)

/-- `ordered_dither` (`ordered_dither.rs` lines 19–29).  The image is its
row-major list of `f32` luminance samples together with its width; pixel
`i` sits at `(x, y) = (i % width, i / width)` and is overwritten with
`test_pixel(..) as u32 as f32`, i.e. `1.0` or `0.0`. -/
def ordered_dither (threshold_map : ThresholdMap) (width : ℕ) (pixels : List ℚ) : List ℚ :=
  pixels.mapIdx fun i luma =>
    if test_pixel threshold_map luma (i % width) (i / width) then 1 else 0

/-- Closed form of the interleaving loop: `interleave p j a` places bit
`p - 1 - k` of `j` at output bit `2 * k` and bit `p - 1 - k` of `a` at
output bit `2 * k + 1`, for `k < p`. -/
def interleave : ℕ → ℕ → ℕ → ℕ
  | 0, _, _ => 0
  | p + 1, j, a => (j >>> p) % 2 + 2 * ((a >>> p) % 2) + 4 * interleave p j a

/-- Recover the first interleaved source (`j`) from an interleaved value. -/
def deJ : ℕ → ℕ → ℕ
  | 0, _ => 0
  | p + 1, n => n % 2 * 2 ^ p + deJ p (n / 4)

/-- Recover the second interleaved source (`a`) from an interleaved value. -/
def deA : ℕ → ℕ → ℕ
  | 0, _ => 0
  | p + 1, n => n / 2 % 2 * 2 ^ p + deA p (n / 4)

/-- The integer interleave results of a level-`l` matrix, before the `f32`
conversion (the value `result` of `threshold_map.rs` line 25 at each
cell). -/
def natMat (l : ℕ) : List (List ℕ) :=
  (List.range (2 ^ (l + 1))).map fun i =>
    (List.range (2 ^ (l + 1))).map fun j =>
      interleaveGo j ((i ^^^ j) % 2 ^ 32) (l + 1) 0 l 0

/-- The canonical 8 x 8 Bayer matrix: the expected values of the
`construct_level` test for level 2 in `threshold_map.rs` (lines 75-84),
before scaling by `1/64`. -/
def bayer8 : List (List ℕ) :=
  [[ 0, 48, 12, 60,  3, 51, 15, 63],
   [32, 16, 44, 28, 35, 19, 47, 31],
   [ 8, 56,  4, 52, 11, 59,  7, 55],
   [40, 24, 36, 20, 43, 27, 39, 23],
   [ 2, 50, 14, 62,  1, 49, 13, 61],
   [34, 18, 46, 30, 33, 17, 45, 29],
   [10, 58,  6, 54,  9, 57,  5, 53],
   [42, 26, 38, 22, 41, 25, 37, 21]]

lemma or_mul_two_pow_eq_add (k a b : ℕ) (h : a < 2 ^ k) :
    a ||| b * 2 ^ k = a + b * 2 ^ k := by
  induction k generalizing a b with
  | zero =>
    obtain rfl : a = 0 := by omega
    simp
  | succ k ih =>
    have hpow : (2 : ℕ) ^ (k + 1) = 2 ^ k * 2 := by ring
    have hy : b * 2 ^ (k + 1) = b * 2 ^ k * 2 := by ring
    have hmod : (a ||| b * 2 ^ k * 2) % 2 = a % 2 := by
      have hiff := Nat.or_mod_two_eq_one (a := a) (b := b * 2 ^ k * 2)
      omega
    have hdiv : (a ||| b * 2 ^ k * 2) / 2 = a / 2 ||| b * 2 ^ k := by
      rw [Nat.or_div_two]
      congr 1
      omega
    have ha2 : a / 2 < 2 ^ k := by omega
    have hrec := ih (a / 2) b ha2
    have hsum := Nat.div_add_mod (a ||| b * 2 ^ k * 2) 2
    rw [hy]
    omega

lemma interleaveGo_eq (j a : ℕ) :
    ∀ s bit result : ℕ, bit + 2 * s ≤ 32 → result < 2 ^ bit →
      interleaveGo j a s bit (s - 1) result = result + interleave s j a * 2 ^ bit := by
  intro s
  induction s with
  | zero => intro bit result _ _; simp [interleaveGo, interleave]
  | succ s ih =>
    intro bit result hbit hres
    have hb64 : bit % 64 = bit := Nat.mod_eq_of_lt (by omega)
    have hb32 : (bit + 1) % 32 = bit + 1 := Nat.mod_eq_of_lt (by omega)
    have hm64 : s % 64 = s := Nat.mod_eq_of_lt (by omega)
    have hm32 : s % 32 = s := Nat.mod_eq_of_lt (by omega)
    have hb0 : (j >>> s) &&& 1 = (j >>> s) % 2 := Nat.and_one_is_mod _
    have hb1 : (a >>> s) &&& 1 = (a >>> s) % 2 := Nat.and_one_is_mod _
    have hb0le : (j >>> s) % 2 ≤ 1 := by omega
    have hb1le : (a >>> s) % 2 ≤ 1 := by omega
    have hstep1 : result ||| ((j >>> s) % 2) <<< bit = result + ((j >>> s) % 2) * 2 ^ bit := by
      rw [Nat.shiftLeft_eq]
      exact or_mul_two_pow_eq_add bit result _ hres
    have hpow1 : (2 : ℕ) ^ (bit + 1) = 2 ^ bit * 2 := by ring
    have hlt1 : result + ((j >>> s) % 2) * 2 ^ bit < 2 ^ (bit + 1) := by
      have := Nat.two_pow_pos bit
      nlinarith
    have hstep2 :
        result + ((j >>> s) % 2) * 2 ^ bit ||| ((a >>> s) % 2) <<< (bit + 1) =
          result + ((j >>> s) % 2) * 2 ^ bit + ((a >>> s) % 2) * 2 ^ (bit + 1) := by
      rw [Nat.shiftLeft_eq]
      exact or_mul_two_pow_eq_add (bit + 1) _ _ hlt1
    have hpow2 : (2 : ℕ) ^ (bit + 2) = 2 ^ bit * 4 := by ring
    have hlt2 :
        result + ((j >>> s) % 2) * 2 ^ bit + ((a >>> s) % 2) * 2 ^ (bit + 1) <
          2 ^ (bit + 2) := by
      have := Nat.two_pow_pos bit
      nlinarith
    show interleaveGo j a s (bit + 2) (s + 1 - 1 - 1)
        ((result ||| ((j >>> ((s + 1 - 1) % 64)) &&& 1) <<< (bit % 64)) |||
          ((a >>> ((s + 1 - 1) % 32)) &&& 1) <<< ((bit + 1) % 32)) = _
    simp only [Nat.add_sub_cancel, hb64, hb32, hm64, hm32, hb0, hb1]
    rw [hstep1, hstep2]
    rw [ih (bit + 2) _ (by omega) hlt2]
    show _ = result + interleave (s + 1) j a * 2 ^ bit
    simp only [interleave]
    ring

lemma interleave_lt : ∀ p j a : ℕ, interleave p j a < 4 ^ p := by
  intro p
  induction p with
  | zero => intro j a; simp [interleave]
  | succ p ih =>
    intro j a
    have h := ih j a
    have h4 : (4 : ℕ) ^ (p + 1) = 4 * 4 ^ p := by ring
    simp only [interleave]
    omega

lemma interleaveGo_zero : ∀ s bit mask result : ℕ,
    interleaveGo 0 0 s bit mask result = result := by
  intro s
  induction s with
  | zero => intro bit mask result; rfl
  | succ s ih =>
    intro bit mask result
    show interleaveGo 0 0 s (bit + 2) (mask - 1) _ = result
    rw [ih]
    simp

lemma interleave_mod : ∀ p j a : ℕ,
    interleave p (j % 2 ^ p) (a % 2 ^ p) = interleave p j a := by
  intro p
  induction p with
  | zero => intro j a; rfl
  | succ p ih =>
    intro j a
    have hpow : (2 : ℕ) ^ (p + 1) = 2 ^ p * 2 := by ring
    have hj : j % 2 ^ (p + 1) / 2 ^ p = j / 2 ^ p % 2 := by
      rw [hpow, Nat.mod_mul_right_div_self]
    have ha : a % 2 ^ (p + 1) / 2 ^ p = a / 2 ^ p % 2 := by
      rw [hpow, Nat.mod_mul_right_div_self]
    have hjm : j % 2 ^ (p + 1) % 2 ^ p = j % 2 ^ p :=
      Nat.mod_mod_of_dvd j (pow_dvd_pow 2 (by omega))
    have ham : a % 2 ^ (p + 1) % 2 ^ p = a % 2 ^ p :=
      Nat.mod_mod_of_dvd a (pow_dvd_pow 2 (by omega))
    have hrec : interleave p (j % 2 ^ (p + 1)) (a % 2 ^ (p + 1)) = interleave p j a := by
      rw [← ih (j % 2 ^ (p + 1)) (a % 2 ^ (p + 1)), hjm, ham, ih]
    simp only [interleave, Nat.shiftRight_eq_div_pow, hj, ha, hrec]
    omega

lemma deJ_lt : ∀ p n : ℕ, deJ p n < 2 ^ p := by
  intro p
  induction p with
  | zero => intro n; simp [deJ]
  | succ p ih =>
    intro n
    have h := ih (n / 4)
    have hpow : (2 : ℕ) ^ (p + 1) = 2 ^ p * 2 := by ring
    simp only [deJ]
    rcases Nat.mod_two_eq_zero_or_one n with h2 | h2 <;> rw [h2] <;> omega

lemma deA_lt : ∀ p n : ℕ, deA p n < 2 ^ p := by
  intro p
  induction p with
  | zero => intro n; simp [deA]
  | succ p ih =>
    intro n
    have h := ih (n / 4)
    have hpow : (2 : ℕ) ^ (p + 1) = 2 ^ p * 2 := by ring
    simp only [deA]
    rcases Nat.mod_two_eq_zero_or_one (n / 2) with h2 | h2 <;> rw [h2] <;> omega

lemma interleave_deJ_deA : ∀ p n : ℕ, n < 4 ^ p →
    interleave p (deJ p n) (deA p n) = n := by
  intro p
  induction p with
  | zero => intro n h; interval_cases n; rfl
  | succ p ih =>
    intro n hn
    have hJlt := deJ_lt p (n / 4)
    have hAlt := deA_lt p (n / 4)
    have hpos : 0 < (2 : ℕ) ^ p := Nat.two_pow_pos p
    have hJ : (n % 2 * 2 ^ p + deJ p (n / 4)) / 2 ^ p = n % 2 := by
      rw [Nat.add_comm, Nat.add_mul_div_right _ _ hpos, Nat.div_eq_of_lt hJlt, Nat.zero_add]
    have hA : (n / 2 % 2 * 2 ^ p + deA p (n / 4)) / 2 ^ p = n / 2 % 2 := by
      rw [Nat.add_comm, Nat.add_mul_div_right _ _ hpos, Nat.div_eq_of_lt hAlt, Nat.zero_add]
    have hJm : (n % 2 * 2 ^ p + deJ p (n / 4)) % 2 ^ p = deJ p (n / 4) := by
      rw [Nat.mul_comm, Nat.mul_add_mod, Nat.mod_eq_of_lt hJlt]
    have hAm : (n / 2 % 2 * 2 ^ p + deA p (n / 4)) % 2 ^ p = deA p (n / 4) := by
      rw [Nat.mul_comm, Nat.mul_add_mod, Nat.mod_eq_of_lt hAlt]
    have h4 : (4 : ℕ) ^ (p + 1) = 4 ^ p * 4 := by ring
    have hrec :
        interleave p (n % 2 * 2 ^ p + deJ p (n / 4)) (n / 2 % 2 * 2 ^ p + deA p (n / 4)) =
          n / 4 := by
      rw [← interleave_mod, hJm, hAm]
      exact ih (n / 4) (by omega)
    simp only [interleave, deJ, deA, Nat.shiftRight_eq_div_pow, hJ, hA, hrec]
    omega

lemma deJ_interleave : ∀ p j a : ℕ, j < 2 ^ p → deJ p (interleave p j a) = j := by
  intro p
  induction p with
  | zero =>
    intro j a h
    obtain rfl : j = 0 := by omega
    rfl
  | succ p ih =>
    intro j a hj
    have hIlt := interleave_lt p j a
    have hb0le : (j >>> p) % 2 ≤ 1 := by omega
    have hb1le : (a >>> p) % 2 ≤ 1 := by omega
    have hmod2 : interleave (p + 1) j a % 2 = (j >>> p) % 2 := by
      simp only [interleave]; omega
    have hdiv4 : interleave (p + 1) j a / 4 = interleave p j a := by
      simp only [interleave]; omega
    have hrec : deJ p (interleave p j a) = j % 2 ^ p := by
      rw [← interleave_mod, ih (j % 2 ^ p) (a % 2 ^ p) (Nat.mod_lt j (Nat.two_pow_pos p))]
    have hdm := Nat.div_add_mod j (2 ^ p)
    have hpow : (2 : ℕ) ^ (p + 1) = 2 ^ p * 2 := by ring
    have hhi : j / 2 ^ p < 2 := by
      rw [Nat.div_lt_iff_lt_mul (Nat.two_pow_pos p)]
      omega
    have hhi2 : j / 2 ^ p % 2 = j / 2 ^ p := Nat.mod_eq_of_lt hhi
    simp only [deJ, hmod2, hdiv4, hrec, Nat.shiftRight_eq_div_pow, hhi2]
    nlinarith [hdm]

lemma deA_interleave : ∀ p j a : ℕ, a < 2 ^ p → deA p (interleave p j a) = a := by
  intro p
  induction p with
  | zero =>
    intro j a h
    obtain rfl : a = 0 := by omega
    rfl
  | succ p ih =>
    intro j a ha
    have hIlt := interleave_lt p j a
    have hb0le : (j >>> p) % 2 ≤ 1 := by omega
    have hb1le : (a >>> p) % 2 ≤ 1 := by omega
    have hdiv2mod : interleave (p + 1) j a / 2 % 2 = (a >>> p) % 2 := by
      simp only [interleave]; omega
    have hdiv4 : interleave (p + 1) j a / 4 = interleave p j a := by
      simp only [interleave]; omega
    have hrec : deA p (interleave p j a) = a % 2 ^ p := by
      rw [← interleave_mod, ih (j % 2 ^ p) (a % 2 ^ p) (Nat.mod_lt a (Nat.two_pow_pos p))]
    have hdm := Nat.div_add_mod a (2 ^ p)
    have hpow : (2 : ℕ) ^ (p + 1) = 2 ^ p * 2 := by ring
    have hhi : a / 2 ^ p < 2 := by
      rw [Nat.div_lt_iff_lt_mul (Nat.two_pow_pos p)]
      omega
    have hhi2 : a / 2 ^ p % 2 = a / 2 ^ p := Nat.mod_eq_of_lt hhi
    simp only [deA, hdiv2mod, hdiv4, hrec, Nat.shiftRight_eq_div_pow, hhi2]
    nlinarith [hdm]

lemma interleaveGo_spec (p j a : ℕ) (hp : p ≤ 16) :
    interleaveGo j a p 0 (p - 1) 0 = interleave p j a := by
  have h := interleaveGo_eq j a p 0 0 (by omega) (by norm_num)
  simpa using h

lemma roundF32_eq_of_lt {n : ℕ} (h : n < 2 ^ 24) : roundF32 n = n := by
  unfold roundF32
  rw [if_pos h]

lemma bitLenGo_zero : ∀ fuel, bitLenGo fuel 0 = 0 := by
  intro fuel
  cases fuel with
  | zero => rfl
  | succ fuel => simp [bitLenGo]

lemma bitLenGo_two_pow : ∀ fuel k : ℕ, k < fuel → bitLenGo fuel (2 ^ k) = k + 1 := by
  intro fuel
  induction fuel with
  | zero => intro k h; omega
  | succ fuel ih =>
    intro k h
    cases k with
    | zero => simp [bitLenGo, bitLenGo_zero]
    | succ k =>
      have hne : (2 : ℕ) ^ (k + 1) ≠ 0 := (Nat.two_pow_pos _).ne'
      have hdiv : (2 : ℕ) ^ (k + 1) / 2 = 2 ^ k := by
        rw [pow_succ, Nat.mul_div_cancel _ (by norm_num)]
      simp only [bitLenGo]
      rw [if_neg hne, hdiv, ih k (by omega)]

lemma roundF32_two_pow {k : ℕ} (hk : k ≤ 63) : roundF32 (2 ^ k) = 2 ^ k := by
  rcases lt_or_ge k 24 with h | h
  · exact roundF32_eq_of_lt (Nat.pow_lt_pow_right (by norm_num) h)
  · have hnlt : ¬ (2 : ℕ) ^ k < 2 ^ 24 := by
      simp only [not_lt]
      exact Nat.pow_le_pow_right (by norm_num) h
    have hbl : bitLen (2 ^ k) = k + 1 := bitLenGo_two_pow 64 k (by omega)
    simp only [roundF32, hnlt, if_false, hbl]
    have he1 : k + 1 - 24 = k - 23 := by omega
    have hq : (2 : ℕ) ^ k / 2 ^ (k - 23) = 2 ^ 23 := by
      rw [Nat.pow_div (by omega) (by norm_num)]
      congr 1
      omega
    have hr : (2 : ℕ) ^ k % 2 ^ (k - 23) = 0 :=
      Nat.mod_eq_zero_of_dvd (pow_dvd_pow 2 (by omega))
    rw [he1, hq, hr, if_pos (Nat.two_pow_pos _), ← pow_add]
    congr 1
    omega

lemma cellValue_exact (p i j : ℕ) (hp1 : 1 ≤ p) (hp : p ≤ 12) (hi : i < 2 ^ p)
    (hj : j < 2 ^ p) :
    cellValue p (2 ^ p) i j = (interleave p j (i ^^^ j) : ℚ) / (((2 ^ p : ℕ) ^ 2 : ℕ) : ℚ) := by
  have hxor : i ^^^ j < 2 ^ p := Nat.xor_lt_two_pow hi hj
  have ha : (i ^^^ j) % 2 ^ 32 = i ^^^ j :=
    Nat.mod_eq_of_lt (lt_of_lt_of_le hxor (Nat.pow_le_pow_right (by norm_num) (by omega)))
  have hgo : interleaveGo j (i ^^^ j) p 0 (p - 1) 0 = interleave p j (i ^^^ j) :=
    interleaveGo_spec p j (i ^^^ j) (by omega)
  have hlt : interleave p j (i ^^^ j) < 4 ^ p := interleave_lt p j (i ^^^ j)
  have h4 : (4 : ℕ) ^ p = (2 ^ p) ^ 2 := by
    rw [show (4 : ℕ) = 2 ^ 2 from by norm_num, ← pow_mul, ← pow_mul, Nat.mul_comm]
  have h24 : ((2 : ℕ) ^ p) ^ 2 ≤ 2 ^ 24 := by
    rw [← pow_mul]
    exact Nat.pow_le_pow_right (by norm_num) (by omega)
  have hs2 : ((2 : ℕ) ^ p) ^ 2 % 2 ^ 64 = (2 ^ p) ^ 2 :=
    Nat.mod_eq_of_lt (lt_of_le_of_lt h24 (by norm_num))
  have hround1 : roundF32 (interleave p j (i ^^^ j)) = interleave p j (i ^^^ j) :=
    roundF32_eq_of_lt (by omega)
  have hround2 : roundF32 (((2 : ℕ) ^ p) ^ 2) = (2 ^ p) ^ 2 := by
    rw [← pow_mul]
    exact roundF32_two_pow (by omega)
  simp only [cellValue, ha, hgo, hs2, hround1, hround2]

lemma cellValue_nonneg (p s i j : ℕ) : 0 ≤ cellValue p s i j := by
  simp only [cellValue]
  exact div_nonneg (Nat.cast_nonneg _) (Nat.cast_nonneg _)

lemma cellValue_zero (p s : ℕ) : cellValue p s 0 0 = 0 := by
  have h0 : (0 ^^^ 0 : ℕ) % 2 ^ 32 = 0 := by simp
  simp only [cellValue, h0, interleaveGo_zero]
  rw [roundF32_eq_of_lt (by norm_num)]
  simp

lemma cellValue_bounds (p i j : ℕ) (hp1 : 1 ≤ p) (hp : p ≤ 12) (hi : i < 2 ^ p)
    (hj : j < 2 ^ p) :
    0 ≤ cellValue p (2 ^ p) i j ∧ cellValue p (2 ^ p) i j < 1 := by
  rw [cellValue_exact p i j hp1 hp hi hj]
  have hlt : interleave p j (i ^^^ j) < (2 ^ p) ^ 2 := by
    have h1 := interleave_lt p j (i ^^^ j)
    have h4 : (4 : ℕ) ^ p = (2 ^ p) ^ 2 := by
      rw [show (4 : ℕ) = 2 ^ 2 from by norm_num, ← pow_mul, ← pow_mul, Nat.mul_comm]
    omega
  have hpos : (0 : ℚ) < (((2 ^ p : ℕ) ^ 2 : ℕ) : ℚ) := by
    exact_mod_cast pow_pos (Nat.two_pow_pos p) 2
  constructor
  · exact div_nonneg (Nat.cast_nonneg _) (le_of_lt hpos)
  · rw [div_lt_one hpos]
    exact_mod_cast hlt

lemma level_mat (l : ℕ) (hl : l ≤ 62) :
    (ThresholdMap.level l).mat =
      (List.range (2 ^ (l + 1))).map fun i =>
        (List.range (2 ^ (l + 1))).map fun j => cellValue (l + 1) (2 ^ (l + 1)) i j := by
  have h1 : (l + 1) % 2 ^ 32 = l + 1 := Nat.mod_eq_of_lt (by omega)
  have h2 : (l + 1) % 64 = l + 1 := Nat.mod_eq_of_lt (by omega)
  have h3 : (1 : ℕ) <<< (l + 1) = 2 ^ (l + 1) := by rw [Nat.shiftLeft_eq, one_mul]
  simp only [ThresholdMap.level, h1, h2, h3]

lemma level_length (l : ℕ) (hl : l ≤ 62) :
    (ThresholdMap.level l).mat.length = 2 ^ (l + 1) := by
  rw [level_mat l hl, List.length_map, List.length_range]

lemma level_cell (l i j : ℕ) (hl : l ≤ 62) (hi : i < 2 ^ (l + 1)) (hj : j < 2 ^ (l + 1)) :
    ((ThresholdMap.level l).mat.getD i []).getD j 0 = cellValue (l + 1) (2 ^ (l + 1)) i j := by
  rw [level_mat l hl]
  have hrow : ((List.range (2 ^ (l + 1))).map fun i =>
      (List.range (2 ^ (l + 1))).map fun j => cellValue (l + 1) (2 ^ (l + 1)) i j).getD i [] =
      (List.range (2 ^ (l + 1))).map fun j => cellValue (l + 1) (2 ^ (l + 1)) i j := by
    rw [List.getD_eq_getElem?_getD, List.getElem?_map, List.getElem?_range hi]
    rfl
  rw [hrow, List.getD_eq_getElem?_getD, List.getElem?_map, List.getElem?_range hj]
  rfl

lemma level_sample (l x y : ℕ) (hl : l ≤ 62) :
    (ThresholdMap.level l).sample x y =
      cellValue (l + 1) (2 ^ (l + 1)) (y % 2 ^ (l + 1)) (x % 2 ^ (l + 1)) := by
  simp only [ThresholdMap.sample, level_length l hl]
  exact level_cell l _ _ hl (Nat.mod_lt y (Nat.two_pow_pos _)) (Nat.mod_lt x (Nat.two_pow_pos _))

lemma level_sample_lt_one (l x y : ℕ) (hl : l ≤ 11) :
    (ThresholdMap.level l).sample x y < 1 := by
  rw [level_sample l x y (by omega)]
  exact (cellValue_bounds (l + 1) _ _ (by omega) (by omega)
    (Nat.mod_lt _ (Nat.two_pow_pos _)) (Nat.mod_lt _ (Nat.two_pow_pos _))).2

lemma getD_mem_or_eq {α : Type} (l : List α) (n : ℕ) (d : α) :
    l.getD n d ∈ l ∨ l.getD n d = d := by
  by_cases h : n < l.length
  · left
    rw [List.getD_eq_getElem?_getD, List.getElem?_eq_getElem h]
    exact List.getElem_mem h
  · right
    rw [List.getD_eq_getElem?_getD, List.getElem?_eq_none (by omega)]
    rfl

lemma level_mem_nonneg (l : ℕ) : ∀ row ∈ (ThresholdMap.level l).mat, ∀ t ∈ row, (0 : ℚ) ≤ t := by
  intro row hrow t ht
  simp only [ThresholdMap.level] at hrow
  obtain ⟨i, hi, rfl⟩ := List.mem_map.1 hrow
  obtain ⟨j, hj, rfl⟩ := List.mem_map.1 ht
  exact cellValue_nonneg _ _ _ _

lemma sample_nonneg_of_mem (m : ThresholdMap)
    (hm : ∀ row ∈ m.mat, ∀ t ∈ row, (0 : ℚ) ≤ t) (x y : ℕ) : 0 ≤ m.sample x y := by
  show 0 ≤ (m.mat.getD (y % m.mat.length) []).getD (x % m.mat.length) 0
  rcases getD_mem_or_eq m.mat (y % m.mat.length) [] with h | h
  · rcases getD_mem_or_eq (m.mat.getD (y % m.mat.length) [])
        (x % m.mat.length) (0 : ℚ) with h2 | h2
    · exact hm _ h _ h2
    · rw [h2]
  · rw [h]
    simp

lemma level_sample_nonneg (l x y : ℕ) : 0 ≤ (ThresholdMap.level l).sample x y :=
  sample_nonneg_of_mem _ (level_mem_nonneg l) x y

lemma cell_natResult (l i j : ℕ) (hl : l ≤ 15) (hi : i < 2 ^ (l + 1)) (hj : j < 2 ^ (l + 1)) :
    interleaveGo j ((i ^^^ j) % 2 ^ 32) (l + 1) 0 l 0 = interleave (l + 1) j (i ^^^ j) := by
  have hxor : i ^^^ j < 2 ^ (l + 1) := Nat.xor_lt_two_pow hi hj
  have ha : (i ^^^ j) % 2 ^ 32 = i ^^^ j :=
    Nat.mod_eq_of_lt (lt_of_lt_of_le hxor (Nat.pow_le_pow_right (by norm_num) (by omega)))
  rw [ha]
  have h := interleaveGo_spec (l + 1) j (i ^^^ j) (by omega)
  simpa using h

lemma level_mat_ratCast (l : ℕ) (hl : l ≤ 11) :
    (ThresholdMap.level l).mat =
      (natMat l).map (List.map fun r : ℕ => (r : ℚ) / (((2 ^ (l + 1) : ℕ) ^ 2 : ℕ) : ℚ)) := by
  rw [level_mat l (by omega)]
  unfold natMat
  rw [List.map_map]
  apply List.map_congr_left
  intro i hi
  simp only [Function.comp]
  rw [List.map_map]
  apply List.map_congr_left
  intro j hj
  simp only [Function.comp]
  rw [cellValue_exact (l + 1) i j (by omega) (by omega)
    (List.mem_range.1 hi) (List.mem_range.1 hj)]
  rw [cell_natResult l i j (by omega) (List.mem_range.1 hi) (List.mem_range.1 hj)]

lemma natMat_zero : natMat 0 = [[0, 3], [2, 1]] := by decide

lemma natMat_one :
    natMat 1 = [[0, 12, 3, 15], [8, 4, 11, 7], [2, 14, 1, 13], [10, 6, 9, 5]] := by decide

lemma natMat_two :
    natMat 2 =
      [[ 0, 48, 12, 60,  3, 51, 15, 63],
       [32, 16, 44, 28, 35, 19, 47, 31],
       [ 8, 56,  4, 52, 11, 59,  7, 55],
       [40, 24, 36, 20, 43, 27, 39, 23],
       [ 2, 50, 14, 62,  1, 49, 13, 61],
       [34, 18, 46, 30, 33, 17, 45, 29],
       [10, 58,  6, 54,  9, 57,  5, 53],
       [42, 26, 38, 22, 41, 25, 37, 21]] := by decide

lemma level0_mat :
    (ThresholdMap.level 0).mat = [[0, 3], [2, 1]].map (List.map fun r : ℕ => (r : ℚ) / 4) := by
  rw [level_mat_ratCast 0 (by norm_num), natMat_zero]
  norm_num

lemma level1_mat :
    (ThresholdMap.level 1).mat =
      [[0, 12, 3, 15], [8, 4, 11, 7], [2, 14, 1, 13], [10, 6, 9, 5]].map
        (List.map fun r : ℕ => (r : ℚ) / 16) := by
  rw [level_mat_ratCast 1 (by norm_num), natMat_one]
  norm_num

lemma level2_mat :
    (ThresholdMap.level 2).mat =
      [[ 0, 48, 12, 60,  3, 51, 15, 63],
       [32, 16, 44, 28, 35, 19, 47, 31],
       [ 8, 56,  4, 52, 11, 59,  7, 55],
       [40, 24, 36, 20, 43, 27, 39, 23],
       [ 2, 50, 14, 62,  1, 49, 13, 61],
       [34, 18, 46, 30, 33, 17, 45, 29],
       [10, 58,  6, 54,  9, 57,  5, 53],
       [42, 26, 38, 22, 41, 25, 37, 21]].map (List.map fun r : ℕ => (r : ℚ) / 64) := by
  rw [level_mat_ratCast 2 (by norm_num), natMat_two]
  norm_num

lemma cellValue_eval (p s i j R D : ℕ)
    (hR : roundF32 (interleaveGo j ((i ^^^ j) % 2 ^ 32) p 0 (p - 1) 0) = R)
    (hD : roundF32 (s ^ 2 % 2 ^ 64) = D) :
    cellValue p s i j = (R : ℚ) / (D : ℚ) := by
  simp only [cellValue, hR, hD]

lemma level3_cell11 : cellValue 4 16 1 1 = 1 / 4 := by
  rw [cellValue_eval 4 16 1 1 64 256 (by decide) (by decide)]
  norm_num

lemma level12_cell : cellValue 13 8192 0 8191 = 1 := by
  rw [cellValue_eval 13 8192 0 8191 67108864 67108864 (by decide) (by decide)]
  norm_num

lemma level12_cell' : cellValue 13 8192 4096 4095 = 1 := by
  rw [cellValue_eval 13 8192 4096 4095 67108864 67108864 (by decide) (by decide)]
  norm_num

lemma level12_cell_getD : ((ThresholdMap.level 12).mat.getD 0 []).getD 8191 0 = 1 := by
  rw [level_cell 12 0 8191 (by norm_num) (by norm_num) (by norm_num)]
  norm_num [level12_cell]

lemma level12_sample : (ThresholdMap.level 12).sample 8191 0 = 1 := by
  rw [level_sample 12 8191 0 (by norm_num)]
  norm_num [level12_cell]

lemma level3_sample11 : (ThresholdMap.level 3).sample 1 1 = 1 / 4 := by
  rw [level_sample 3 1 1 (by norm_num)]
  norm_num [level3_cell11]

lemma level3_sample00 : (ThresholdMap.level 3).sample 0 0 = 0 := by
  rw [level_sample 3 0 0 (by norm_num)]
  norm_num [cellValue_zero]

lemma level63_mat : (ThresholdMap.level 63).mat = [[0]] := by
  have h1 : (63 + 1) % 2 ^ 32 = 64 := by norm_num
  have h2 : (64 : ℕ) % 64 = 0 := by norm_num
  have h3 : (1 : ℕ) <<< 0 = 1 := rfl
  have h4 : List.range 1 = [0] := by decide
  simp only [ThresholdMap.level, h1, h2, h3, h4, List.map]
  rw [cellValue_zero]

lemma ordered_dither_length (m : ThresholdMap) (w : ℕ) (pixels : List ℚ) :
    (ordered_dither m w pixels).length = pixels.length := by
  simp [ordered_dither]

lemma ordered_dither_const (m : ThresholdMap) (w n : ℕ) (c : ℚ) (b : Bool)
    (h : ∀ x y, test_pixel m c x y = b) :
    ordered_dither m w (List.replicate n c) = List.replicate n (if b then 1 else 0) := by
  apply List.ext_getElem
  · simp [ordered_dither]
  · intro i h1 h2
    simp only [ordered_dither, List.getElem_mapIdx, List.getElem_replicate]
    rw [h]

lemma level_all_on (l : ℕ) (hl : l ≤ 11) (w n : ℕ) :
    ordered_dither (ThresholdMap.level l) w (List.replicate n 1) = List.replicate n 1 := by
  have h := ordered_dither_const (ThresholdMap.level l) w n 1 true ?_
  · simpa using h
  · intro x y
    simp only [test_pixel, decide_eq_true_eq]
    exact level_sample_lt_one l x y hl

lemma level_all_off (l w n : ℕ) :
    ordered_dither (ThresholdMap.level l) w (List.replicate n 0) = List.replicate n 0 := by
  have h := ordered_dither_const (ThresholdMap.level l) w n 0 false ?_
  · simpa using h
  · intro x y
    simp only [test_pixel, decide_eq_false_iff_not]
    exact not_lt.2 (level_sample_nonneg l x y)

/-- C1 — counterexample.  The claim says that for overflowing levels
`ThresholdMap::level` fails with an `InvalidParameter` error.  The function
has no error-returning branch at all: its return type is the matrix itself.
At `level = 63` (where `2 ^ (level + 1)` exceeds the `usize` range) the
release-semantics shift wraps and the generator returns a wrapped-around
1 × 1 matrix `[[0.0]]` instead of any error. -/
theorem C1_counterexample : (ThresholdMap.level 63).mat = [[0]] :=
  level63_mat

/-- C1 (amended): `ThresholdMap::level` never fails with an
`InvalidParameter` error — it has no error branch.  For oversized levels a
release build wraps: at `level = 63` it returns a matrix of size 1 instead
of `2 ^ 64` (a debug build would panic on the shift instead; neither build
produces an error value). -/
theorem C1_theorem :
    (ThresholdMap.level 63).mat.length = 1 ∧
      (ThresholdMap.level 63).mat.length ≠ 2 ^ (63 + 1) := by
  rw [level63_mat]
  constructor <;> norm_num

/-- C2 (amended): for every `level ≤ 11` every cell `t` of the generated
matrix satisfies `0 ≤ t < 1`.  (From `level = 12` on, the `u64 → f32` cast
rounds the largest interleave results up to `size ^ 2`, producing cells
exactly equal to `1.0`; see the counterexample.) -/
theorem C2_theorem (level : ℕ) (hl : level ≤ 11) :
    ∀ row ∈ (ThresholdMap.level level).mat, ∀ t ∈ row, 0 ≤ t ∧ t < 1 := by
  intro row hrow t ht
  rw [level_mat level (by omega)] at hrow
  obtain ⟨i, hi, rfl⟩ := List.mem_map.1 hrow
  obtain ⟨j, hj, rfl⟩ := List.mem_map.1 ht
  exact cellValue_bounds (level + 1) i j (by omega) (by omega)
    (List.mem_range.1 hi) (List.mem_range.1 hj)

/-- C2 — witness: the amended theorem applied to level 0 and the cell
`t(0,1) = 3/4`. -/
theorem C2_witness : 0 ≤ (3 / 4 : ℚ) ∧ (3 / 4 : ℚ) < 1 :=
  C2_theorem 0 (by norm_num) [0, 3 / 4] (by rw [level0_mat]; norm_num) (3 / 4) (by norm_num)

/-- C2 — counterexample.  Generation succeeds at `level = 12`
(`size = 8192`), but the cell at row 0, column 8191 has interleave result
`2 ^ 26 - 1`, which the `f32` cast rounds up to `2 ^ 26 = size ^ 2`, so the
stored threshold is exactly `1.0`, not `< 1.0`. -/
theorem C2_counterexample :
    ((ThresholdMap.level 12).mat.getD 0 []).getD 8191 0 = 1 ∧
      ¬ ((ThresholdMap.level 12).mat.getD 0 []).getD 8191 0 < 1 := by
  rw [level12_cell_getD]
  norm_num

/-- C3: `ThresholdMap::level 1` is exactly the canonical 4 × 4 Bayer matrix
scaled by `1/16` (rows `[0,12,3,15]`, `[8,4,11,7]`, `[2,14,1,13]`,
`[10,6,9,5]`), and `ThresholdMap::level 0` is exactly
`[[0/4, 3/4], [2/4, 1/4]]` (row-major). -/
theorem C3_theorem :
    (ThresholdMap.level 1).mat =
      [[0, 12, 3, 15], [8, 4, 11, 7], [2, 14, 1, 13], [10, 6, 9, 5]].map
        (List.map fun r : ℕ => (r : ℚ) / 16) ∧
    (ThresholdMap.level 0).mat = [[0, 3], [2, 1]].map (List.map fun r : ℕ => (r : ℚ) / 4) :=
  ⟨level1_mat, level0_mat⟩

/-- C4: `ThresholdMap::level 2` is exactly the canonical 8 × 8 Bayer matrix
scaled by `1/64`, and each of the 64 threshold values `k/64`
(`k = 0, …, 63`) occurs exactly once in it. -/
theorem C4_theorem :
    (ThresholdMap.level 2).mat = bayer8.map (List.map fun r : ℕ => (r : ℚ) / 64) ∧
    (List.range 64).map (fun k : ℕ => (ThresholdMap.level 2).mat.flatten.count ((k : ℚ) / 64)) =
      List.replicate 64 1 := by
  have hmat : (ThresholdMap.level 2).mat = bayer8.map (List.map fun r : ℕ => (r : ℚ) / 64) := by
    simp only [bayer8]
    exact level2_mat
  refine ⟨hmat, ?_⟩
  have hinj : Function.Injective fun r : ℕ => (r : ℚ) / 64 := by
    intro a b hab
    simp only at hab
    have h : (a : ℚ) = (b : ℚ) := by
      calc (a : ℚ) = (a : ℚ) / 64 * 64 := by field_simp
        _ = (b : ℚ) / 64 * 64 := by rw [hab]
        _ = (b : ℚ) := by field_simp
    exact_mod_cast h
  have hflat : (ThresholdMap.level 2).mat.flatten =
      bayer8.flatten.map fun r : ℕ => (r : ℚ) / 64 := by
    rw [hmat, ← List.map_flatten]
  rw [hflat]
  have hpt : ∀ k ∈ List.range 64,
      (bayer8.flatten.map fun r : ℕ => (r : ℚ) / 64).count ((k : ℚ) / 64) =
        bayer8.flatten.count k := by
    intro k _
    exact List.count_map_of_injective _ _ hinj k
  rw [List.map_congr_left hpt]
  decide

/-- C5: the dither decision is `luminance > threshold` with strict
inequality (equality classifies as "off"), and the concrete cases from the
`pixel_test` test of `ordered_dither.rs` hold against the level-3 map:
`sample(1,1) = 0.25`, so luminance `0.25` at `(1,1)` is off and `0.26` is
on; `sample(0,0) = 0.0`, so luminance `1.0` there is on and `0.0` off. -/
theorem C5_theorem :
    (∀ (m : ThresholdMap) (luma : ℚ) (x y : ℕ),
        test_pixel m luma x y = true ↔ luma > m.sample x y) ∧
    (ThresholdMap.level 3).sample 1 1 = 1 / 4 ∧
    test_pixel (ThresholdMap.level 3) (1 / 4) 1 1 = false ∧
    test_pixel (ThresholdMap.level 3) (26 / 100) 1 1 = true ∧
    (ThresholdMap.level 3).sample 0 0 = 0 ∧
    test_pixel (ThresholdMap.level 3) 1 0 0 = true ∧
    test_pixel (ThresholdMap.level 3) 0 0 0 = false := by
  refine ⟨fun m luma x y => by simp [test_pixel], level3_sample11, ?_, ?_,
    level3_sample00, ?_, ?_⟩
  · simp only [test_pixel, level3_sample11, decide_eq_false_iff_not]
    norm_num
  · simp only [test_pixel, level3_sample11, decide_eq_true_eq]
    norm_num
  · simp only [test_pixel, level3_sample00, decide_eq_true_eq]
    norm_num
  · simp only [test_pixel, level3_sample00, decide_eq_false_iff_not]
    norm_num

/-- C6: sampling wraps toroidally in both axes: for every map with side
`s = mat.length`, `sample(x, y) = mat[y % s][x % s]`, hence
`sample(x, y) = sample(x + s, y) = sample(x, y + s)` for all nonnegative
coordinates. -/
theorem C6_theorem (m : ThresholdMap) (x y : ℕ) :
    m.sample x y = (m.mat.getD (y % m.mat.length) []).getD (x % m.mat.length) 0 ∧
    m.sample (x + m.mat.length) y = m.sample x y ∧
    m.sample x (y + m.mat.length) = m.sample x y := by
  refine ⟨rfl, ?_, ?_⟩ <;> simp only [ThresholdMap.sample, Nat.add_mod_right]

/-- C7: for every level ≤ 62 the generated matrix is square with exactly
`2 ^ (level + 1)` rows, every row of length `2 ^ (level + 1)`, and the side
is a power of two that is at least 2.  (The map is a plain immutable value
after construction.) -/
theorem C7_theorem (level : ℕ) (hl : level ≤ 62) :
    (ThresholdMap.level level).mat.length = 2 ^ (level + 1) ∧
    (∀ row ∈ (ThresholdMap.level level).mat, row.length = 2 ^ (level + 1)) ∧
    2 ≤ 2 ^ (level + 1) := by
  refine ⟨level_length level hl, ?_, ?_⟩
  · intro row hrow
    rw [level_mat level hl] at hrow
    obtain ⟨i, hi, rfl⟩ := List.mem_map.1 hrow
    simp
  · calc (2 : ℕ) = 2 ^ 1 := by norm_num
      _ ≤ 2 ^ (level + 1) := Nat.pow_le_pow_right (by norm_num) (by omega)

/-- C7 — witness: the shape theorem applied to level 0. -/
theorem C7_witness :
    (ThresholdMap.level 0).mat.length = 2 ^ (0 + 1) ∧
    (∀ row ∈ (ThresholdMap.level 0).mat, row.length = 2 ^ (0 + 1)) ∧
    2 ≤ 2 ^ (0 + 1) :=
  C7_theorem 0 (by norm_num)

/-- C8 (amended): dithering an all-`1.0` image against a generated map
yields all-"on" for `level ≤ 11` (where every threshold is `< 1.0`);
dithering an all-`0.0` image yields all-"off" for every generated map
(thresholds are nonnegative); and the output always has the same number of
pixels as the input.  (For `level ≥ 12` a threshold can equal `1.0` and the
all-on part fails; see the counterexample.) -/
theorem C8_theorem :
    (∀ level, level ≤ 11 → ∀ w n,
        ordered_dither (ThresholdMap.level level) w (List.replicate n 1) =
          List.replicate n 1) ∧
    (∀ level w n,
        ordered_dither (ThresholdMap.level level) w (List.replicate n 0) =
          List.replicate n 0) ∧
    (∀ (m : ThresholdMap) (w : ℕ) (pixels : List ℚ),
        (ordered_dither m w pixels).length = pixels.length) :=
  ⟨fun level hl w n => level_all_on level hl w n,
   fun level w n => level_all_off level w n,
   fun m w pixels => ordered_dither_length m w pixels⟩

/-- C8 — witness: a 3-wide, 6-pixel all-`1.0` image dithered with the
level-2 map comes out all-"on". -/
theorem C8_witness :
    ordered_dither (ThresholdMap.level 2) 3 (List.replicate 6 1) = List.replicate 6 1 :=
  C8_theorem.1 2 (by norm_num) 3 6

/-- C8 — counterexample.  With the level-12 map (whose cell at row 0,
column 8191 is exactly `1.0`), dithering an 8192 × 1 all-`1.0` image does
not produce an all-"on" output: the pixel at `x = 8191` compares
`1.0 > 1.0` and comes out "off". -/
theorem C8_counterexample :
    ordered_dither (ThresholdMap.level 12) 8192 (List.replicate 8192 1) ≠
      List.replicate 8192 1 := by
  have htest : test_pixel (ThresholdMap.level 12) 1 8191 0 = false := by
    simp only [test_pixel, decide_eq_false_iff_not, level12_sample]
    norm_num
  intro h
  have h1 := congrArg (fun l : List ℚ => l.getD 8191 0) h
  simp only [ordered_dither, List.getD_eq_getElem?_getD, List.getElem?_mapIdx] at h1
  rw [show (List.replicate 8192 (1 : ℚ))[8191]? = some 1 from
    List.getElem?_replicate_of_lt (by norm_num)] at h1
  simp only [Option.map_some', Option.getD_some] at h1
  norm_num [htest] at h1

/-- C9 (amended): for every level ≤ 15 and every `n < size ^ 2`, exactly
one cell `(i, j)` of the generation loop has interleave result `n` — the
map `(i, j) ↦ interleave(j, i XOR j)` is a bijection onto
`{0, …, size ^ 2 - 1}`.  For `level ≤ 11` (where the `f32` conversion is
exact) the stored threshold `n / size ^ 2` therefore also occurs at exactly
one cell.  (From `level = 12` on, rounding merges distinct results, so
thresholds can repeat; from `level = 16` on, the `u32` shift of the `a`
bits masks its amount by 32 in a release build — a debug build panics —
so even the integer results collide.  See the counterexample for both.) -/
theorem C9_theorem (level : ℕ) (hl : level ≤ 15) (n : ℕ)
    (hn : n < (2 ^ (level + 1)) ^ 2) :
    (∃! q : ℕ × ℕ, q.1 < 2 ^ (level + 1) ∧ q.2 < 2 ^ (level + 1) ∧
        interleaveGo q.2 ((q.1 ^^^ q.2) % 2 ^ 32) (level + 1) 0 level 0 = n) ∧
    (level ≤ 11 →
      ∃! q : ℕ × ℕ, q.1 < 2 ^ (level + 1) ∧ q.2 < 2 ^ (level + 1) ∧
        cellValue (level + 1) (2 ^ (level + 1)) q.1 q.2 =
          (n : ℚ) / (((2 ^ (level + 1) : ℕ) ^ 2 : ℕ) : ℚ)) := by
  have h4 : ((2 : ℕ) ^ (level + 1)) ^ 2 = 4 ^ (level + 1) := by
    rw [show (4 : ℕ) = 2 ^ 2 from by norm_num, ← pow_mul, ← pow_mul, Nat.mul_comm]
  have hn4 : n < 4 ^ (level + 1) := by omega
  have hj0 : deJ (level + 1) n < 2 ^ (level + 1) := deJ_lt _ n
  have ha0 : deA (level + 1) n < 2 ^ (level + 1) := deA_lt _ n
  have hi0 : deJ (level + 1) n ^^^ deA (level + 1) n < 2 ^ (level + 1) :=
    Nat.xor_lt_two_pow hj0 ha0
  have hxor0 : (deJ (level + 1) n ^^^ deA (level + 1) n) ^^^ deJ (level + 1) n =
      deA (level + 1) n := by
    rw [Nat.xor_comm (deJ (level + 1) n) (deA (level + 1) n), Nat.xor_assoc,
      Nat.xor_self, Nat.xor_zero]
  have hval : interleaveGo (deJ (level + 1) n)
      (((deJ (level + 1) n ^^^ deA (level + 1) n) ^^^ deJ (level + 1) n) % 2 ^ 32)
      (level + 1) 0 level 0 = n := by
    rw [cell_natResult level _ _ hl hi0 hj0, hxor0]
    exact interleave_deJ_deA (level + 1) n hn4
  have huniq : ∃! q : ℕ × ℕ, q.1 < 2 ^ (level + 1) ∧ q.2 < 2 ^ (level + 1) ∧
      interleaveGo q.2 ((q.1 ^^^ q.2) % 2 ^ 32) (level + 1) 0 level 0 = n := by
    refine ⟨(deJ (level + 1) n ^^^ deA (level + 1) n, deJ (level + 1) n),
      ⟨hi0, hj0, hval⟩, ?_⟩
    rintro ⟨i, j⟩ ⟨hi, hj, hv⟩
    rw [cell_natResult level i j hl hi hj] at hv
    have hj' : j = deJ (level + 1) n := by
      rw [← hv, deJ_interleave (level + 1) j (i ^^^ j) hj]
    have ha' : i ^^^ j = deA (level + 1) n := by
      rw [← hv, deA_interleave (level + 1) j (i ^^^ j) (Nat.xor_lt_two_pow hi hj)]
    have hi' : i = deJ (level + 1) n ^^^ deA (level + 1) n := by
      rw [← hj', ← ha', Nat.xor_comm i j, ← Nat.xor_assoc, Nat.xor_self, Nat.zero_xor]
    simp [hi', hj']
  refine ⟨huniq, fun h11 => ?_⟩
  have hD : (((2 ^ (level + 1) : ℕ) ^ 2 : ℕ) : ℚ) ≠ 0 :=
    Nat.cast_ne_zero.2 (by positivity)
  have hcv : ∀ i j : ℕ, i < 2 ^ (level + 1) → j < 2 ^ (level + 1) →
      (cellValue (level + 1) (2 ^ (level + 1)) i j =
          (n : ℚ) / (((2 ^ (level + 1) : ℕ) ^ 2 : ℕ) : ℚ) ↔
        interleaveGo j ((i ^^^ j) % 2 ^ 32) (level + 1) 0 level 0 = n) := by
    intro i j hi hj
    rw [cellValue_exact (level + 1) i j (by omega) (by omega) hi hj,
      cell_natResult level i j hl hi hj, div_left_inj' hD]
    exact_mod_cast Iff.rfl
  obtain ⟨q, ⟨hq1, hq2, hq3⟩, hq4⟩ := huniq
  refine ⟨q, ⟨hq1, hq2, (hcv q.1 q.2 hq1 hq2).2 hq3⟩, ?_⟩
  rintro ⟨i, j⟩ ⟨hi, hj, hv⟩
  exact hq4 (i, j) ⟨hi, hj, (hcv i j hi hj).1 hv⟩

/-- C9 — witness: the amended theorem at `level = 0`, `n = 3`: the result
`3` (threshold `3/4`) occurs at exactly one cell of the 2 × 2 matrix. -/
theorem C9_witness :
    (∃! q : ℕ × ℕ, q.1 < 2 ^ (0 + 1) ∧ q.2 < 2 ^ (0 + 1) ∧
        interleaveGo q.2 ((q.1 ^^^ q.2) % 2 ^ 32) (0 + 1) 0 0 0 = 3) ∧
    (0 ≤ 11 →
      ∃! q : ℕ × ℕ, q.1 < 2 ^ (0 + 1) ∧ q.2 < 2 ^ (0 + 1) ∧
        cellValue (0 + 1) (2 ^ (0 + 1)) q.1 q.2 =
          (3 : ℚ) / (((2 ^ (0 + 1) : ℕ) ^ 2 : ℕ) : ℚ)) :=
  C9_theorem 0 (by norm_num) 3 (by norm_num)

/-- C9 — counterexample, refuting the claim as stated twice over.  At
`level = 12` (generation succeeds) "every threshold value `k/size^2`
occurs exactly once" fails: the distinct cells `(0, 8191)` and
`(4096, 4095)` have interleave results `2 ^ 26 - 1` and `2 ^ 26 - 2`, both
of which the `f32` cast rounds to `2 ^ 26`, so both cells store the same
threshold.  And at `level = 16` even the integer interleave is not
injective: the `u32` shift of the `a` bits masks its amount by 32 in a
release build, so the distinct cells `(1, 0)` and `(65536, 0)` both
produce result `2` (a debug build panics on that shift instead). -/
theorem C9_counterexample :
    (((ThresholdMap.level 12).mat.getD 0 []).getD 8191 0 =
        ((ThresholdMap.level 12).mat.getD 4096 []).getD 4095 0 ∧
      ((0, 8191) : ℕ × ℕ) ≠ ((4096, 4095) : ℕ × ℕ)) ∧
    (interleaveGo 0 ((1 ^^^ 0) % 2 ^ 32) 17 0 16 0 =
        interleaveGo 0 ((65536 ^^^ 0) % 2 ^ 32) 17 0 16 0 ∧
      ((1, 0) : ℕ × ℕ) ≠ ((65536, 0) : ℕ × ℕ)) := by
  refine ⟨⟨?_, by decide⟩, by decide, by decide⟩
  rw [level_cell 12 0 8191 (by norm_num) (by norm_num) (by norm_num),
    level_cell 12 4096 4095 (by norm_num) (by norm_num) (by norm_num)]
  norm_num [level12_cell, level12_cell']

/-- C10: for every level ≤ 30, the cell at row 0, column 0 of the generated
matrix is exactly `0.0`; consequently `sample(k·size, m·size) = 0.0` for
all nonnegative `k`, `m`, and a pixel at such a coordinate is "on" exactly
when its luminance is strictly greater than `0`. -/
theorem C10_theorem (level : ℕ) (hl : level ≤ 30) :
    ((ThresholdMap.level level).mat.getD 0 []).getD 0 0 = 0 ∧
    (∀ k m : ℕ,
        (ThresholdMap.level level).sample (k * (ThresholdMap.level level).mat.length)
          (m * (ThresholdMap.level level).mat.length) = 0) ∧
    (∀ (luma : ℚ) (k m : ℕ),
        test_pixel (ThresholdMap.level level) luma
            (k * (ThresholdMap.level level).mat.length)
            (m * (ThresholdMap.level level).mat.length) = true ↔ luma > 0) := by
  have hlen : (ThresholdMap.level level).mat.length = 2 ^ (level + 1) :=
    level_length level (by omega)
  have hsamp : ∀ k m : ℕ,
      (ThresholdMap.level level).sample (k * (ThresholdMap.level level).mat.length)
        (m * (ThresholdMap.level level).mat.length) = 0 := by
    intro k m
    rw [hlen, level_sample level _ _ (by omega), Nat.mul_mod_left, Nat.mul_mod_left]
    exact cellValue_zero _ _
  refine ⟨?_, hsamp, ?_⟩
  · rw [level_cell level 0 0 (by omega) (Nat.two_pow_pos _) (Nat.two_pow_pos _)]
    exact cellValue_zero _ _
  · intro luma k m
    simp only [test_pixel, decide_eq_true_eq, hsamp k m]

/-- C10 — witness: the theorem at `level = 2`. -/
theorem C10_witness :
    ((ThresholdMap.level 2).mat.getD 0 []).getD 0 0 = 0 ∧
    (∀ k m : ℕ,
        (ThresholdMap.level 2).sample (k * (ThresholdMap.level 2).mat.length)
          (m * (ThresholdMap.level 2).mat.length) = 0) ∧
    (∀ (luma : ℚ) (k m : ℕ),
        test_pixel (ThresholdMap.level 2) luma
            (k * (ThresholdMap.level 2).mat.length)
            (m * (ThresholdMap.level 2).mat.length) = true ↔ luma > 0) :=
  C10_theorem 2 (by norm_num)
